import Mathlib

/-!
Shallow embedding of `simpleNTRU.py` (class `SimpleNTRU`).

A Sage polynomial over `ZZ` is embedded as a `List Int` of coefficients,
index `i` holding the coefficient of `x^i` (trailing zero entries are
harmless: every operation of the class pads or truncates to length `N`
itself, exactly as the Python code does).  The ring parameters `N`, `p`,
`q` of `SimpleNTRU.__init__` are passed explicitly to every operation.
The injected randomness (`random.sample`) becomes an explicit list of
chosen positions.
-/

namespace SimpleNTRU

/-- Pointwise addition of coefficient lists, the embedding of Sage
polynomial `+` (the shorter list is implicitly padded with zeros). -/
def addList : List Int → List Int → List Int
  | [], ys => ys
  | x :: xs, [] => x :: xs
  | x :: xs, y :: ys => (x + y) :: addList xs ys

/-- Scalar multiple of a coefficient list, the embedding of Sage
`k * poly` (used by `keygen` for `self.p * fq_inv`). -/
def smulList (k : Int) (l : List Int) : List Int :=
  l.map (fun c => k * c)

/-- Full convolution product of coefficient lists, the embedding of Sage
polynomial `a * b` in `ZZ[x]`. -/
def conv : List Int → List Int → List Int
  | [], _ => []
  | a :: as, b => addList (smulList a b) (0 :: conv as b)

/-- Embedding of `SimpleNTRU.poly_reduce`: fold coefficient `i` into
slot `i % N` of an accumulator of `N` zeros. -/
def poly_reduce (N : Nat) (l : List Int) : List Int :=
  l.enum.foldl (fun acc ic => acc.set (ic.1 % N) (acc.getD (ic.1 % N) 0 + ic.2))
    (List.replicate N 0)

/-- The pad-then-slice `coeffs[:N]` step shared by `poly_mod_q`,
`poly_mod_p`, `inv_poly` and the centering loop of `decrypt`: extend
with zeros up to length `N`, then keep the first `N` coefficients. -/
def padTrunc (N : Nat) (l : List Int) : List Int :=
  (l ++ List.replicate (N - l.length) 0).take N

/-- Embedding of `SimpleNTRU.poly_mod_q`: pad/truncate to length `N`,
then reduce every kept coefficient modulo `q`. -/
def poly_mod_q (N q : Nat) (l : List Int) : List Int :=
  (padTrunc N l).map (fun c => c % (q : Int))

/-- Embedding of `SimpleNTRU.poly_mod_p`: pad/truncate to length `N`,
then reduce every kept coefficient modulo `p`. -/
def poly_mod_p (N p : Nat) (l : List Int) : List Int :=
  (padTrunc N l).map (fun c => c % (p : Int))

/-- Embedding of `SimpleNTRU.poly_mult_mod`: multiply, reduce modulo
`x^N - 1`, then reduce the coefficients modulo `mod` — but only when
`mod` is the instance's `p` or `q`; any other modulus falls through the
`else` branch with no coefficient reduction. -/
def poly_mult_mod (N p q : Nat) (a b : List Int) (m : Int) : List Int :=
  let reduced := poly_reduce N (conv a b)
  if m = (p : Int) then poly_mod_p N p reduced
  else if m = (q : Int) then poly_mod_q N q reduced
  else reduced

/-- Multiplication in `(Z/m)[x]/(x^N - 1)` on canonical coefficient
lists: multiply, fold modulo `x^N - 1`, reduce coefficients modulo `m`.
Both reduced branches of `poly_mult_mod` compute exactly this. -/
def mulMod (N m : Nat) (a b : List Int) : List Int :=
  (poly_reduce N (conv a b)).map (fun c => c % (m : Int))

/-- The multiplicative identity of the quotient ring as a length-`N`
coefficient list: coefficient `1` at index `0`, `0` elsewhere. -/
def identityPoly (N : Nat) : List Int :=
  (List.replicate N (0 : Int)).set 0 1

/-- All length-`N` coefficient lists with entries in `[0, m)`: the
canonical representatives of `(Z/m)[x]/(x^N - 1)`, in lexicographic
order. -/
def allPolys : Nat → Nat → List (List Int)
  | 0, _ => [[]]
  | n + 1, m => (List.range m).flatMap (fun c => (allPolys n m).map (fun l => ((c : Nat) : Int) :: l))

/-- Embedding of `SimpleNTRU.inv_poly`.  The Python code pads/truncates
the input to `N` coefficients, maps it into Sage's quotient ring
`(Z/modulus)[x]/(x^N - 1)` and asks Sage for `(-1)`-th power, catching
the exception into `None`.  A unit of a commutative ring has a unique
inverse, so Sage's answer is exactly the unique canonical coefficient
list whose product with the input is the identity; the embedding finds
it by searching the canonical representatives, and returns `none`
exactly when no inverse exists. -/
def inv_poly (N m : Nat) (f : List Int) : Option (List Int) :=
  (allPolys N m).find? (fun b => mulMod N m (padTrunc N f) b == identityPoly N)

/-- Embedding of `SimpleNTRU.random_small_poly` with the randomness
injected: `positions` stands for the list returned by
`random.sample(range(N), d1 + d2)` (distinct values below `N`).  The
first `d1` chosen positions are set to `+1`, the next `d2` to `-1`; the
guard models the `ValueError` that `random.sample` raises when
`d1 + d2 > N`. -/
def random_small_poly (N d1 d2 : Nat) (positions : List Nat) : Option (List Int) :=
  if d1 + d2 ≤ N then
    some ((((positions.drop d1).take d2).foldl (fun acc j => acc.set j (-1))
      ((positions.take d1).foldl (fun acc j => acc.set j 1) (List.replicate N 0))))
  else none

/-- One attempt of `SimpleNTRU.keygen`: sample `f` and `g` with
`d = N // 3`, invert `f` modulo `p` and modulo `q`, and on success
build the public key `h = poly_mult_mod(p * fq_inv, g, q)`.  Returns
`((f, fp_inv), h)`, the private/public pair of the source. -/
def keygen_attempt (N p q : Nat) (posf posg : List Nat) :
    Option ((List Int × List Int) × List Int) :=
  let d := N / 3
  match random_small_poly N (d + 1) d posf, random_small_poly N d d posg with
  | some f, some g =>
    match inv_poly N p f, inv_poly N q f with
    | some fp_inv, some fq_inv =>
        some ((f, fp_inv), poly_mult_mod N p q (smulList (p : Int) fq_inv) g (q : Int))
    | _, _ => none
  | _, _ => none

/-- Embedding of `SimpleNTRU.keygen` with its retry-on-failure
recursion: each element of `attempts` is the pair of position lists the
randomness source hands to one attempt; the first succeeding attempt's
key pair is returned. -/
def keygen (N p q : Nat) : List (List Nat × List Nat) → Option ((List Int × List Int) × List Int)
  | [] => none
  | attempt :: rest =>
    match keygen_attempt N p q attempt.1 attempt.2 with
    | some result => some result
    | none => keygen N p q rest

/-- Embedding of `SimpleNTRU.encrypt` on an already-encoded message
list (the string-encoding branch is out of the core, per the spec):
sample `r` with `d = N // 3`, return `poly_mod_q(r * h + m)`. -/
def encrypt (N p q : Nat) (message h : List Int) (posr : List Nat) : Option (List Int) :=
  (random_small_poly N (N / 3) (N / 3) posr).map (fun r =>
    poly_mod_q N q (addList (poly_mult_mod N p q r h (q : Int)) message))

/-- The centering loop of `SimpleNTRU.decrypt`: pad/truncate to `N`
coefficients, and replace `c` by `c - q` exactly when `c > q // 2`. -/
def center (N q : Nat) (l : List Int) : List Int :=
  (padTrunc N l).map (fun c => if ((q / 2 : Nat) : Int) < c then c - (q : Int) else c)

/-- Embedding of `SimpleNTRU.decrypt`: `a = f * c mod q`, center `a`,
reduce modulo `p`, multiply by `fp_inv` modulo `p`. -/
def decrypt (N p q : Nat) (ciphertext f fp_inv : List Int) : List Int :=
  let a := poly_mult_mod N p q f ciphertext (q : Int)
  let b := poly_mod_p N p (center N q a)
  poly_mult_mod N p q fp_inv b (p : Int)

/-- The exact integer noise polynomial of one encryption:
`p * (r * g) + f * message`, folded modulo `x^N - 1` but not reduced
modulo `q`.  Decryption is correct when its coefficients stay inside
the centered window. -/
def noisePoly (N p : Nat) (f g r message : List Int) : List Int :=
  poly_reduce N (addList (smulList (p : Int) (conv r g)) (conv f message))

/-- Validity of one output of `random.sample(range(N), k)`: `k`
distinct positions, all below `N`. -/
def validPositions (N k : Nat) (positions : List Nat) : Prop :=
  positions.length = k ∧ positions.Nodup ∧ ∀ j ∈ positions, j < N

section Semantics

open AddMonoidAlgebra

/-- Interpretation of a coefficient list in the quotient ring
`(Z/m)[x]/(x^N - 1)`, realised as the monoid algebra of `ZMod N`
(exponents modulo `N`) over `ZMod m` (coefficients modulo `m`). -/
noncomputable def phi (m N : Nat) : List Int → AddMonoidAlgebra (ZMod m) (ZMod N)
  | [] => 0
  | c :: l => single 0 (c : ZMod m) + single (1 : ZMod N) (1 : ZMod m) * phi m N l

variable {m N : Nat}

theorem phi_nil : phi m N ([]) = 0 := rfl

theorem phi_cons (c : Int) (l : List Int) :
    phi m N (c :: l) = single 0 (c : ZMod m) + single (1 : ZMod N) 1 * phi m N l := rfl

theorem phi_addList (xs ys : List Int) :
    phi m N (addList xs ys) = phi m N xs + phi m N ys := by
  induction xs generalizing ys with
  | nil => simp [addList, phi_nil]
  | cons x xs ih =>
    cases ys with
    | nil => simp [addList, phi_nil]
    | cons y ys =>
      simp only [addList, phi_cons, ih, Int.cast_add, single_add]
      ring

theorem phi_smulList (k : Int) (l : List Int) :
    phi m N (smulList k l) = single (0 : ZMod N) (k : ZMod m) * phi m N l := by
  induction l with
  | nil => simp [smulList, phi_nil]
  | cons c l ih =>
    simp only [smulList, List.map_cons, phi_cons] at *
    rw [ih, mul_add, single_mul_single, zero_add, Int.cast_mul]
    ring

theorem phi_conv (a b : List Int) : phi m N (conv a b) = phi m N a * phi m N b := by
  induction a with
  | nil => simp [conv, phi_nil]
  | cons c as ih =>
    rw [show conv (c :: as) b = addList (smulList c b) (0 :: conv as b) from rfl,
      phi_addList, phi_smulList, phi_cons, phi_cons, ih]
    simp only [Int.cast_zero, single_zero, zero_add]
    ring

theorem phi_append (xs ys : List Int) :
    phi m N (xs ++ ys) = phi m N xs + single (1 : ZMod N) (1 : ZMod m) ^ xs.length * phi m N ys := by
  induction xs with
  | nil => simp [phi_nil]
  | cons x xs ih =>
    simp only [List.cons_append, phi_cons, ih, List.length_cons, pow_succ]
    ring

theorem phi_replicate_zero (n : Nat) : phi m N (List.replicate n 0) = 0 := by
  induction n with
  | zero => rfl
  | succ n ih => rw [List.replicate_succ, phi_cons, ih]; simp

theorem phi_set_add (acc : List Int) (j : Nat) (c : Int) (hj : j < acc.length) :
    phi m N (acc.set j (acc.getD j 0 + c)) =
      phi m N acc + single ((j : Nat) : ZMod N) (c : ZMod m) := by
  induction acc generalizing j with
  | nil => simp at hj
  | cons a t ih =>
    cases j with
    | zero =>
      simp only [List.set_cons_zero, List.getD_cons_zero, phi_cons, Int.cast_add,
        single_add, Nat.cast_zero]
      ring
    | succ j =>
      have hj' : j < t.length := by simpa using hj
      simp only [List.set_cons_succ, List.getD_cons_succ, phi_cons, ih j hj']
      rw [mul_add, single_mul_single, one_mul]
      push_cast
      ring_nf

theorem single_one_pow (k : Nat) :
    (single (1 : ZMod N) (1 : ZMod m)) ^ k = single ((k : Nat) : ZMod N) 1 := by
  rw [single_pow, one_pow, nsmul_eq_mul, mul_one]

theorem length_foldl_set (l : List (Nat × Int)) (acc : List Int) :
    (l.foldl (fun acc ic => acc.set (ic.1 % N) (acc.getD (ic.1 % N) 0 + ic.2)) acc).length
      = acc.length := by
  induction l generalizing acc with
  | nil => rfl
  | cons x l ih => rw [List.foldl_cons, ih, List.length_set]

theorem length_poly_reduce (N : Nat) (l : List Int) : (poly_reduce N l).length = N := by
  rw [poly_reduce, length_foldl_set, List.length_replicate]

theorem phi_foldl_enumFrom (hN : 0 < N) (l : List Int) :
    ∀ (k : Nat) (acc : List Int), acc.length = N →
      phi m N ((List.enumFrom k l).foldl
          (fun acc ic => acc.set (ic.1 % N) (acc.getD (ic.1 % N) 0 + ic.2)) acc)
        = phi m N acc + single (1 : ZMod N) (1 : ZMod m) ^ k * phi m N l := by
  induction l with
  | nil => intro k acc _; simp [phi_nil]
  | cons c cs ih =>
    intro k acc hacc
    rw [show List.enumFrom k (c :: cs) = (k, c) :: List.enumFrom (k + 1) cs from rfl,
      List.foldl_cons]
    rw [ih (k + 1) _ (by rw [List.length_set, hacc])]
    rw [phi_set_add _ _ _ (by rw [hacc]; exact Nat.mod_lt _ hN)]
    rw [ZMod.natCast_mod k N]
    rw [phi_cons, mul_add, ← mul_assoc, ← pow_succ]
    simp only [single_one_pow]
    rw [single_mul_single, add_zero, one_mul]
    exact add_assoc _ _ _

theorem phi_poly_reduce (hN : 0 < N) (l : List Int) : phi m N (poly_reduce N l) = phi m N l := by
  rw [poly_reduce, show l.enum = List.enumFrom 0 l from rfl,
    phi_foldl_enumFrom hN l 0 _ (List.length_replicate _ _), phi_replicate_zero,
    pow_zero, one_mul, zero_add]

theorem phi_map_emod (l : List Int) :
    phi m N (l.map (fun c => c % (m : Int))) = phi m N l := by
  induction l with
  | nil => rfl
  | cons c cs ih => simp only [List.map_cons, phi_cons, ih, ZMod.intCast_mod]

theorem length_padTrunc (N : Nat) (l : List Int) : (padTrunc N l).length = N := by
  simp only [padTrunc, List.length_take, List.length_append, List.length_replicate]
  omega

theorem padTrunc_eq_append (N : Nat) (l : List Int) (hl : l.length ≤ N) :
    padTrunc N l = l ++ List.replicate (N - l.length) 0 := by
  rw [padTrunc]
  apply List.take_of_length_le
  simp only [List.length_append, List.length_replicate]
  omega

theorem padTrunc_eq_self (N : Nat) (l : List Int) (hl : l.length = N) : padTrunc N l = l := by
  rw [padTrunc_eq_append N l hl.le, hl, Nat.sub_self, List.replicate_zero, List.append_nil]

theorem phi_padTrunc (l : List Int) (hl : l.length ≤ N) :
    phi m N (padTrunc N l) = phi m N l := by
  rw [padTrunc_eq_append N l hl, phi_append, phi_replicate_zero, mul_zero, add_zero]

theorem phi_identityPoly (hN : 0 < N) : phi m N (identityPoly N) = (1 : AddMonoidAlgebra (ZMod m) (ZMod N)) := by
  obtain ⟨n, rfl⟩ : ∃ n, N = n + 1 := ⟨N - 1, by omega⟩
  rw [identityPoly, List.replicate_succ, List.set_cons_zero, phi_cons, phi_replicate_zero,
    mul_zero, add_zero, one_def, Int.cast_one]

theorem phi_mulMod (hN : 0 < N) (a b : List Int) :
    phi m N (mulMod N m a b) = phi m N a * phi m N b := by
  rw [mulMod, phi_map_emod, phi_poly_reduce hN, phi_conv]

theorem phi_eq_sum (l : List Int) :
    phi m N l = ∑ i ∈ Finset.range l.length,
      single ((i : Nat) : ZMod N) ((l.getD i 0 : Int) : ZMod m) := by
  induction l with
  | nil => simp [phi_nil]
  | cons c cs ih =>
    rw [phi_cons, ih, List.length_cons, Finset.sum_range_succ', Finset.mul_sum]
    simp only [List.getD_cons_succ, List.getD_cons_zero, Nat.cast_zero]
    rw [add_comm]
    congr 1
    apply Finset.sum_congr rfl
    intro i _
    rw [single_mul_single, one_mul]
    congr 1
    push_cast
    exact add_comm 1 _

theorem phi_apply_getD (l : List Int) (hl : l.length = N) (j : Nat) (hj : j < N) :
    phi m N l ((j : Nat) : ZMod N) = ((l.getD j 0 : Int) : ZMod m) := by
  classical
  rw [phi_eq_sum, Finsupp.finset_sum_apply, Finset.sum_eq_single j]
  · rw [single_apply, if_pos rfl]
  · intro i hi hne
    have hiN : i < N := hl ▸ Finset.mem_range.mp hi
    rw [single_apply, if_neg]
    intro hcast
    apply hne
    have hval := congrArg ZMod.val hcast
    rwa [ZMod.val_natCast_of_lt hiN, ZMod.val_natCast_of_lt hj] at hval
  · intro hj'
    exact absurd (Finset.mem_range.mpr (hl ▸ hj)) hj'

theorem phi_getD_congr (l₁ l₂ : List Int) (h1 : l₁.length = N) (h2 : l₂.length = N)
    (h : phi m N l₁ = phi m N l₂) (j : Nat) (hj : j < N) :
    ((l₁.getD j 0 : Int) : ZMod m) = ((l₂.getD j 0 : Int) : ZMod m) := by
  rw [← phi_apply_getD l₁ h1 j hj, ← phi_apply_getD l₂ h2 j hj, h]

theorem intCast_zmod_inj {q : Nat} {x y : Int} (hx0 : 0 ≤ x) (hx : x < q) (hy0 : 0 ≤ y)
    (hy : y < q) (h : (x : ZMod q) = (y : ZMod q)) : x = y := by
  have hmod := (ZMod.intCast_eq_intCast_iff' x y q).mp h
  rwa [Int.emod_eq_of_lt hx0 hx, Int.emod_eq_of_lt hy0 hy] at hmod

end Semantics

section Bridges

theorem getD_map (f : Int → Int) (l : List Int) (j : Nat) (hj : j < l.length) :
    (l.map f).getD j 0 = f (l.getD j 0) := by
  rw [List.getD_eq_getElem _ _ (by simpa using hj), List.getD_eq_getElem _ _ hj,
    List.getElem_map]

theorem getD_of_length_le (l : List Int) (j : Nat) (hj : l.length ≤ j) : l.getD j 0 = 0 := by
  rw [List.getD_eq_getElem?_getD, List.getElem?_eq_none hj]
  rfl

theorem padTrunc_getD (N : Nat) (l : List Int) (j : Nat) (hj : j < N) :
    (padTrunc N l).getD j 0 = l.getD j 0 := by
  rw [List.getD_eq_getElem?_getD, List.getD_eq_getElem?_getD, padTrunc,
    List.getElem?_take, if_pos hj, List.getElem?_append]
  by_cases hl : j < l.length
  · rw [if_pos hl]
  · rw [if_neg hl, List.getElem?_replicate, List.getElem?_eq_none (le_of_not_lt hl)]
    by_cases hrep : j - l.length < N - l.length
    · rw [if_pos hrep]
      rfl
    · rw [if_neg hrep]

theorem poly_mod_q_getD (N q : Nat) (l : List Int) (j : Nat) (hj : j < N) :
    (poly_mod_q N q l).getD j 0 = l.getD j 0 % (q : Int) := by
  rw [poly_mod_q, getD_map _ _ _ (by rw [length_padTrunc]; exact hj), padTrunc_getD N l j hj]

theorem poly_mod_p_getD (N p : Nat) (l : List Int) (j : Nat) (hj : j < N) :
    (poly_mod_p N p l).getD j 0 = l.getD j 0 % (p : Int) := by
  rw [poly_mod_p, getD_map _ _ _ (by rw [length_padTrunc]; exact hj), padTrunc_getD N l j hj]

theorem center_getD (N q : Nat) (l : List Int) (j : Nat) (hj : j < N) :
    (center N q l).getD j 0 =
      if ((q / 2 : Nat) : Int) < l.getD j 0 then l.getD j 0 - (q : Int) else l.getD j 0 := by
  rw [center, getD_map _ _ _ (by rw [length_padTrunc]; exact hj), padTrunc_getD N l j hj]

theorem length_poly_mod_q (N q : Nat) (l : List Int) : (poly_mod_q N q l).length = N := by
  rw [poly_mod_q, List.length_map, length_padTrunc]

theorem length_poly_mod_p (N p : Nat) (l : List Int) : (poly_mod_p N p l).length = N := by
  rw [poly_mod_p, List.length_map, length_padTrunc]

theorem length_center (N q : Nat) (l : List Int) : (center N q l).length = N := by
  rw [center, List.length_map, length_padTrunc]

theorem length_mulMod (N m : Nat) (a b : List Int) : (mulMod N m a b).length = N := by
  rw [mulMod, List.length_map, length_poly_reduce]

theorem length_poly_mult_mod (N p q : Nat) (a b : List Int) (m : Int) :
    (poly_mult_mod N p q a b m).length = N := by
  rw [poly_mult_mod]
  split
  · exact length_poly_mod_p N p _
  · split
    · exact length_poly_mod_q N q _
    · exact length_poly_reduce N _

theorem mem_map_emod {m : Nat} (hm : 0 < m) (l : List Int) :
    ∀ c ∈ l.map (fun c => c % (m : Int)), 0 ≤ c ∧ c < (m : Int) := by
  intro c hc
  obtain ⟨x, _, rfl⟩ := List.mem_map.mp hc
  have hm' : (0 : Int) < (m : Int) := by exact_mod_cast hm
  exact ⟨Int.emod_nonneg x (by omega), Int.emod_lt_of_pos x hm'⟩

theorem mulMod_bounds {N m : Nat} (hm : 0 < m) (a b : List Int) :
    ∀ c ∈ mulMod N m a b, 0 ≤ c ∧ c < (m : Int) :=
  mem_map_emod hm _

theorem poly_mult_mod_p_eq (N p q : Nat) (a b : List Int) :
    poly_mult_mod N p q a b (p : Int) = mulMod N p a b := by
  rw [poly_mult_mod, if_pos rfl, poly_mod_p, mulMod,
    padTrunc_eq_self N _ (length_poly_reduce N _)]

theorem poly_mult_mod_q_eq (N p q : Nat) (a b : List Int) :
    poly_mult_mod N p q a b (q : Int) = mulMod N q a b := by
  by_cases hpq : (q : Int) = (p : Int)
  · obtain rfl : q = p := by exact_mod_cast hpq
    exact poly_mult_mod_p_eq N q q a b
  · rw [poly_mult_mod, if_neg hpq, if_pos rfl, poly_mod_q, mulMod,
      padTrunc_eq_self N _ (length_poly_reduce N _)]

theorem inv_poly_some {N m : Nat} {f b : List Int} (h : inv_poly N m f = some b) :
    mulMod N m (padTrunc N f) b = identityPoly N ∧ b ∈ allPolys N m := by
  refine ⟨?_, List.mem_of_find?_eq_some h⟩
  have hp := List.find?_some h
  exact eq_of_beq hp

theorem inv_poly_none {N m : Nat} {f : List Int}
    (h : ∀ b ∈ allPolys N m, mulMod N m (padTrunc N f) b ≠ identityPoly N) :
    inv_poly N m f = none := by
  cases hfind : inv_poly N m f with
  | none => rfl
  | some b => exact absurd (inv_poly_some hfind).1 (h b (inv_poly_some hfind).2)

theorem getD_mem (l : List Int) (j : Nat) (hj : j < l.length) : l.getD j 0 ∈ l := by
  rw [List.getD_eq_getElem _ _ hj]
  exact List.getElem_mem hj

theorem getD_replicate_zero (n j : Nat) : (List.replicate n (0 : Int)).getD j 0 = 0 := by
  by_cases h : j < n
  · rw [List.getD_eq_getElem _ _ (by simpa using h)]
    exact List.getElem_replicate ..
  · exact getD_of_length_le _ _ (by simpa using le_of_not_lt h)

theorem getD_set_self (l : List Int) (i : Nat) (v : Int) (h : i < l.length) :
    (l.set i v).getD i 0 = v := by
  rw [List.getD_eq_getElem _ _ (by simpa using h)]
  exact List.getElem_set_self ..

theorem getD_set_ne (l : List Int) (i j : Nat) (v : Int) (h : i ≠ j) :
    (l.set i v).getD j 0 = l.getD j 0 := by
  by_cases hj : j < l.length
  · rw [List.getD_eq_getElem _ _ (by simpa using hj), List.getD_eq_getElem _ _ hj]
    exact List.getElem_set_ne (by omega) ..
  · rw [getD_of_length_le _ _ (by simpa using le_of_not_lt hj),
      getD_of_length_le _ _ (le_of_not_lt hj)]

theorem length_addList (xs ys : List Int) : (addList xs ys).length = max xs.length ys.length := by
  induction xs generalizing ys with
  | nil => simp [addList]
  | cons x xs ih =>
    cases ys with
    | nil => simp [addList]
    | cons y ys =>
      simp only [addList, List.length_cons, ih]
      omega

theorem set_getD_self (l : List Int) (j : Nat) : l.set j (l.getD j 0) = l := by
  by_cases hj : j < l.length
  · apply List.ext_getElem (by simp)
    intro i h1 h2
    by_cases hij : j = i
    · subst hij
      rw [List.getElem_set_self .., List.getD_eq_getElem _ _ hj]
    · exact List.getElem_set_ne (by omega) ..
  · apply List.ext_getElem (by simp)
    intro i h1 h2
    exact List.getElem_set_ne (by omega) ..

theorem addList_zero_entries (xs ys : List Int) (hx : ∀ x ∈ xs, x = 0) (hy : ∀ y ∈ ys, y = 0) :
    ∀ z ∈ addList xs ys, z = 0 := by
  induction xs generalizing ys with
  | nil => simpa [addList] using hy
  | cons x xs ih =>
    cases ys with
    | nil => simpa [addList] using hx
    | cons y ys =>
      intro z hz
      rcases List.mem_cons.mp hz with rfl | hz'
      · rw [hx x (by simp), hy y (by simp), add_zero]
      · exact ih ys (fun u hu => hx u (List.mem_cons_of_mem _ hu))
          (fun u hu => hy u (List.mem_cons_of_mem _ hu)) z hz'

theorem conv_zero_entries (xs ys : List Int) (hx : ∀ x ∈ xs, x = 0) :
    ∀ z ∈ conv xs ys, z = 0 := by
  induction xs with
  | nil => simp [conv]
  | cons x xs ih =>
    refine addList_zero_entries _ _ ?_ ?_
    · intro u hu
      obtain ⟨w, _, rfl⟩ := List.mem_map.mp hu
      rw [hx x (by simp), zero_mul]
    · intro u hu
      rcases List.mem_cons.mp hu with rfl | hu'
      · rfl
      · exact ih (fun w hw => hx w (List.mem_cons_of_mem _ hw)) u hu'

theorem foldl_reduce_zero_entries (N : Nat) (l : List (Nat × Int)) (acc : List Int)
    (hz : ∀ x ∈ l, x.2 = 0) :
    l.foldl (fun acc ic => acc.set (ic.1 % N) (acc.getD (ic.1 % N) 0 + ic.2)) acc = acc := by
  induction l generalizing acc with
  | nil => rfl
  | cons x l ih =>
    rw [List.foldl_cons, show x.2 = 0 from hz x (by simp), add_zero, set_getD_self]
    exact ih acc (fun y hy => hz y (List.mem_cons_of_mem _ hy))

theorem poly_reduce_zero_entries (N : Nat) (l : List Int) (hz : ∀ x ∈ l, x = 0) :
    poly_reduce N l = List.replicate N 0 := by
  rw [poly_reduce]
  apply foldl_reduce_zero_entries
  intro x hx
  apply hz
  have := List.mem_map_of_mem Prod.snd hx
  rwa [List.enum_map_snd] at this

theorem mulMod_zero_left (N m k : Nat) (b : List Int) :
    mulMod N m (List.replicate k 0) b = List.replicate N 0 := by
  rw [mulMod, poly_reduce_zero_entries N _ (conv_zero_entries _ b (by simp)),
    List.map_replicate]
  norm_num

theorem phi_poly_mod_q {N q : Nat} (l : List Int) (hl : l.length ≤ N) :
    phi q N (poly_mod_q N q l) = phi q N l := by
  rw [poly_mod_q, phi_map_emod, phi_padTrunc _ hl]

theorem phi_poly_mod_p {N p : Nat} (l : List Int) (hl : l.length ≤ N) :
    phi p N (poly_mod_p N p l) = phi p N l := by
  rw [poly_mod_p, phi_map_emod, phi_padTrunc _ hl]

theorem decrypt_eq (N p q : Nat) (c f fp_inv : List Int) :
    decrypt N p q c f fp_inv
      = mulMod N p fp_inv
          (poly_mod_p N p (center N q (poly_mult_mod N p q f c (q : Int)))) := by
  rw [show decrypt N p q c f fp_inv
      = poly_mult_mod N p q fp_inv
          (poly_mod_p N p (center N q (poly_mult_mod N p q f c (q : Int)))) (p : Int) from rfl,
    poly_mult_mod_p_eq]

theorem length_foldl_setv (v : Int) (ps : List Nat) (acc : List Int) :
    (ps.foldl (fun acc j => acc.set j v) acc).length = acc.length := by
  induction ps generalizing acc with
  | nil => rfl
  | cons j ps ih => rw [List.foldl_cons, ih, List.length_set]

theorem getD_foldl_setv (v : Int) (ps : List Nat) (acc : List Int) (j : Nat)
    (hj : j < acc.length) :
    (ps.foldl (fun acc i => acc.set i v) acc).getD j 0
      = if j ∈ ps then v else acc.getD j 0 := by
  induction ps generalizing acc with
  | nil => simp
  | cons i ps ih =>
    rw [List.foldl_cons, ih _ (by rw [List.length_set]; exact hj)]
    by_cases hmem : j ∈ ps
    · rw [if_pos hmem, if_pos (List.mem_cons_of_mem _ hmem)]
    · rw [if_neg hmem]
      by_cases hij : j = i
      · subst hij
        rw [if_pos (List.mem_cons_self ..), getD_set_self _ _ _ hj]
      · rw [getD_set_ne _ _ _ _ (fun h => hij h.symm),
          if_neg (by simp [hij, hmem])]

theorem count_eq_countP_range (l : List Int) (v : Int) :
    l.count v = (List.range l.length).countP (fun j => l.getD j 0 == v) := by
  induction l with
  | nil => rfl
  | cons c t ih =>
    rw [List.count_cons, List.length_cons, List.range_succ_eq_map, List.countP_cons,
      List.countP_map, ih]
    simp only [Function.comp_def, List.getD_cons_succ, List.getD_cons_zero]

theorem countP_mem_range {ps : List Nat} (N : Nat) (hN : ∀ j ∈ ps, j < N)
    (hnd : ps.Nodup) :
    (List.range N).countP (fun j => decide (j ∈ ps)) = ps.length := by
  rw [List.countP_eq_length_filter]
  have hperm : List.Perm ((List.range N).filter (fun j => decide (j ∈ ps))) ps := by
    apply (List.perm_ext_iff_of_nodup ((List.nodup_range ..).filter _) hnd).mpr
    intro a
    rw [List.mem_filter, List.mem_range]
    constructor
    · intro h
      exact of_decide_eq_true h.2
    · intro h
      exact ⟨hN a h, decide_eq_true h⟩
  exact hperm.length_eq

/-- Value of the sampled polynomial at each position: the `-1` pass wins on
its positions, then the `+1` pass, and `0` elsewhere. -/
theorem random_small_poly_spec {N d1 d2 : Nat} {pos : List Nat} {l : List Int}
    (hsome : random_small_poly N d1 d2 pos = some l) :
    l.length = N ∧ ∀ j < N,
      l.getD j 0 = if j ∈ (pos.drop d1).take d2 then -1
        else if j ∈ pos.take d1 then 1 else 0 := by
  rw [random_small_poly] at hsome
  split at hsome
  case isFalse => exact absurd hsome (by simp)
  case isTrue hle =>
    obtain rfl : _ = l := Option.some.inj hsome
    have hlen1 : ((pos.take d1).foldl (fun acc j => acc.set j (1 : Int))
        (List.replicate N (0 : Int))).length = N := by
      rw [length_foldl_setv, List.length_replicate]
    refine ⟨by rw [length_foldl_setv, hlen1], ?_⟩
    intro j hj
    rw [getD_foldl_setv _ _ _ _ (by rw [hlen1]; exact hj),
      getD_foldl_setv _ _ _ _ (by rw [List.length_replicate]; exact hj),
      getD_replicate_zero]

theorem random_small_poly_counts {N d1 d2 : Nat} {pos : List Nat} {l : List Int}
    (hsome : random_small_poly N d1 d2 pos = some l)
    (hval : validPositions N (d1 + d2) pos) :
    l.length = N ∧ l.count 1 = d1 ∧ l.count (-1) = d2 ∧
      ∀ c ∈ l, c = 1 ∨ c = -1 ∨ c = 0 := by
  obtain ⟨hlen, hget⟩ := random_small_poly_spec hsome
  obtain ⟨hplen, hpnd, hpN⟩ := hval
  have hps1len : (pos.take d1).length = d1 := by
    rw [List.length_take]
    omega
  have hps2eq : (pos.drop d1).take d2 = pos.drop d1 := by
    apply List.take_of_length_le
    rw [List.length_drop]
    omega
  have hps2len : ((pos.drop d1).take d2).length = d2 := by
    rw [hps2eq, List.length_drop]
    omega
  have hnd1 : (pos.take d1).Nodup := hpnd.sublist (List.take_sublist d1 pos)
  have hnd2 : ((pos.drop d1).take d2).Nodup :=
    hpnd.sublist ((List.take_sublist d2 _).trans (List.drop_sublist d1 pos))
  have hN1 : ∀ j ∈ pos.take d1, j < N := fun j hj => hpN j ((List.take_sublist d1 pos).mem hj)
  have hN2 : ∀ j ∈ (pos.drop d1).take d2, j < N := fun j hj =>
    hpN j (((List.take_sublist d2 _).trans (List.drop_sublist d1 pos)).mem hj)
  have hdisj : ∀ j ∈ pos.take d1, j ∉ (pos.drop d1).take d2 := by
    have hnd' := hpnd
    rw [← List.take_append_drop d1 pos, List.nodup_append] at hnd'
    intro j hj hj2
    rw [hps2eq] at hj2
    exact hnd'.2.2 hj hj2
  refine ⟨hlen, ?_, ?_, ?_⟩
  · rw [count_eq_countP_range, hlen,
      List.countP_congr (q := fun j => decide (j ∈ pos.take d1)) ?_,
      countP_mem_range N hN1 hnd1, hps1len]
    intro j hjr
    have hj : j < N := List.mem_range.mp hjr
    rw [hget j hj]
    by_cases h2 : j ∈ (pos.drop d1).take d2
    · rw [if_pos h2]
      exact ⟨fun hb => absurd hb (by decide),
        fun hd => absurd h2 (hdisj j (of_decide_eq_true hd))⟩
    · rw [if_neg h2]
      by_cases h1 : j ∈ pos.take d1
      · rw [if_pos h1]
        exact ⟨fun _ => decide_eq_true h1, fun _ => by decide⟩
      · rw [if_neg h1]
        exact ⟨fun hb => absurd hb (by decide),
          fun hd => absurd (of_decide_eq_true hd) h1⟩
  · rw [count_eq_countP_range, hlen,
      List.countP_congr (q := fun j => decide (j ∈ (pos.drop d1).take d2)) ?_,
      countP_mem_range N hN2 hnd2, hps2len]
    intro j hjr
    have hj : j < N := List.mem_range.mp hjr
    rw [hget j hj]
    by_cases h2 : j ∈ (pos.drop d1).take d2
    · rw [if_pos h2]
      exact ⟨fun _ => decide_eq_true h2, fun _ => by decide⟩
    · rw [if_neg h2]
      by_cases h1 : j ∈ pos.take d1
      · rw [if_pos h1]
        exact ⟨fun hb => absurd hb (by decide),
          fun hd => absurd (of_decide_eq_true hd) h2⟩
      · rw [if_neg h1]
        exact ⟨fun hb => absurd hb (by decide),
          fun hd => absurd (of_decide_eq_true hd) h2⟩
  · intro c hc
    obtain ⟨i, hi, rfl⟩ := List.mem_iff_getElem.mp hc
    rw [← List.getD_eq_getElem _ 0 hi, hget i (by rw [← hlen]; exact hi)]
    split
    · exact Or.inr (Or.inl rfl)
    · split
      · exact Or.inl rfl
      · exact Or.inr (Or.inr rfl)

end Bridges

section Claims

/-- C2: for every polynomial `f` of length `N` and every modulus `m` drawn
from the instance pair `(p, q)`, if `inv_poly` succeeds and returns an
inverse `b`, then `poly_mult_mod f b m` is the multiplicative identity
polynomial (coefficient `1` at index `0`, `0` elsewhere). -/
theorem C2_inverse_correct (N p q m : Nat) (f b : List Int) (hf : f.length = N)
    (hm : m = p ∨ m = q) (hinv : inv_poly N m f = some b) :
    poly_mult_mod N p q f b (m : Int) = identityPoly N := by
  have hmul : mulMod N m f b = identityPoly N := by
    have h := (inv_poly_some hinv).1
    rwa [padTrunc_eq_self N f hf] at h
  rcases hm with rfl | rfl
  · rw [poly_mult_mod_p_eq, hmul]
  · rw [poly_mult_mod_q_eq, hmul]

/-- Witness for C2 at `N = 2`, `p = 3`, `q = 4`, `f = 2`: the inverse of
`2` in `(Z/3)[x]/(x^2 - 1)` is `2`, and their product is the identity. -/
theorem C2_inverse_correct_witness :
    poly_mult_mod 2 3 4 [2, 0] [2, 0] ((3 : Nat) : Int) = identityPoly 2 :=
  C2_inverse_correct 2 3 4 3 [2, 0] [2, 0] (by decide) (Or.inl rfl) (by decide)

/-- C3 as frozen is false: `poly_mult_mod` reduces coefficients only for
the instance moduli; with `p = 3`, `q = 32` and the foreign modulus
`m = 5`, the product of `7` and `1` keeps the coefficient `7`, which is
not in `[0, 5)`. -/
theorem C3_counterexample :
    ¬ (∀ c ∈ poly_mult_mod 1 3 32 [7] [1] (5 : Int), 0 ≤ c ∧ c < (5 : Int)) := by
  decide

/-- C3 amended: `poly_mult_mod` always returns a list of length `N`; its
coefficients lie in `[0, m)` when the modulus is the instance's `p` or
`q` (and positive), the only moduli the protocol ever passes — for any
other modulus the `else` branch skips coefficient reduction. -/
theorem C3_ring_closure (N p q : Nat) (a b : List Int) (m : Int) :
    (poly_mult_mod N p q a b m).length = N ∧
      ((m = (p : Int) ∨ m = (q : Int)) → 0 < m →
        ∀ c ∈ poly_mult_mod N p q a b m, 0 ≤ c ∧ c < m) := by
  refine ⟨length_poly_mult_mod N p q a b m, ?_⟩
  rintro (rfl | rfl) hm
  · rw [poly_mult_mod_p_eq]
    exact mulMod_bounds (by exact_mod_cast hm) a b
  · rw [poly_mult_mod_q_eq]
    exact mulMod_bounds (by exact_mod_cast hm) a b

/-- Witness for the amended C3 at `N = 2`, `m = p = 3`. -/
theorem C3_ring_closure_witness :
    (poly_mult_mod 2 3 32 [5, 7] [1, 1] ((3 : Nat) : Int)).length = 2 ∧
      ∀ c ∈ poly_mult_mod 2 3 32 [5, 7] [1, 1] ((3 : Nat) : Int), 0 ≤ c ∧ c < ((3 : Nat) : Int) :=
  ⟨(C3_ring_closure 2 3 32 [5, 7] [1, 1] 3).1,
    (C3_ring_closure 2 3 32 [5, 7] [1, 1] 3).2 (Or.inl rfl) (by decide)⟩

/-- C4: on a length-`N` input with coefficients in `[0, q)`, the
centering step subtracts `q` exactly from the coefficients strictly
above `q / 2`, lands every coefficient in the window `(-q/2, q/2]`
(stated multiplied by two to be exact for odd `q` as well), and in
particular leaves a coefficient equal to `q / 2` (for even `q`)
unchanged. -/
theorem C4_center (N q : Nat) (l : List Int) (_hq : 0 < q) (hl : l.length = N)
    (hbound : ∀ c ∈ l, 0 ≤ c ∧ c < (q : Int)) (j : Nat) (hj : j < N) :
    (center N q l).getD j 0 =
        (if ((q / 2 : Nat) : Int) < l.getD j 0 then l.getD j 0 - (q : Int) else l.getD j 0) ∧
      (-(q : Int) < 2 * (center N q l).getD j 0 ∧ 2 * (center N q l).getD j 0 ≤ (q : Int)) ∧
      (2 * l.getD j 0 = (q : Int) → (center N q l).getD j 0 = l.getD j 0) := by
  have hc := center_getD N q l j hj
  have hb := hbound _ (getD_mem l j (hl ▸ hj))
  refine ⟨hc, ?_, ?_⟩
  · rw [hc]
    split
    · omega
    · omega
  · intro h2
    rw [hc, if_neg (by omega)]

/-- Witness for C4 at `q = 32` on the coefficient `16 = q / 2`, which
centering leaves in place. -/
theorem C4_center_witness :
    (center 4 32 [0, 16, 17, 31]).getD 1 0 = ([0, 16, 17, 31] : List Int).getD 1 0 :=
  (C4_center 4 32 [0, 16, 17, 31] (by decide) (by decide) (by decide) 1 (by decide)).2.2
    (by decide)

/-- C5 as frozen is false: `inv_poly` implements no `Unsupported` error
for moduli that are neither prime nor a power of two — at the modulus
`15` it happily inverts `2` and returns the polynomial `8`. -/
theorem C5_counterexample :
    inv_poly 1 15 [2] = some [8] ∧ ¬ Nat.Prime 15 ∧ ∀ k : Nat, 15 ≠ 2 ^ k := by
  refine ⟨by decide, by decide, ?_⟩
  intro k hk
  rcases Nat.lt_or_ge k 4 with h | h
  · interval_cases k <;> simp_all
  · have h16 : 2 ^ 4 ≤ 2 ^ k := Nat.pow_le_pow_right (by norm_num) h
    omega

/-- C5 amended: `inv_poly` treats every modulus through the same generic
quotient-ring inversion and has exactly two outcomes, independent of the
modulus shape: `none` (no inverse), or `some b` with `b` a genuine
inverse of the (truncated) input.  There is no separate `Unsupported`
signal. -/
theorem C5_two_outcomes (N m : Nat) (f : List Int) :
    inv_poly N m f = none ∨
      ∃ b, inv_poly N m f = some b ∧ mulMod N m (padTrunc N f) b = identityPoly N := by
  cases h : inv_poly N m f with
  | none => exact Or.inl rfl
  | some b => exact Or.inr ⟨b, rfl, (inv_poly_some h).1⟩

/-- C6: if a length-`N` polynomial has no inverse at all in
`(Z/m)[x]/(x^N - 1)` — no coefficient list multiplies with it to the
identity — then `inv_poly` returns `none` (the `NoInverse` signal),
never a polynomial. -/
theorem C6_noninvertible_rejected (N m : Nat) (f : List Int) (hf : f.length = N)
    (h : ¬ ∃ b : List Int, mulMod N m f b = identityPoly N) :
    inv_poly N m f = none := by
  apply inv_poly_none
  intro b _ hb
  rw [padTrunc_eq_self N f hf] at hb
  exact h ⟨b, hb⟩

/-- Witness for C6: the zero polynomial modulo the prime `3` is not a
unit, and `inv_poly` rejects it. -/
theorem C6_noninvertible_rejected_witness : inv_poly 2 3 [0, 0] = none := by
  apply C6_noninvertible_rejected 2 3 [0, 0] (by decide)
  rintro ⟨b, hb⟩
  rw [show ([0, 0] : List Int) = List.replicate 2 0 from rfl, mulMod_zero_left] at hb
  exact absurd hb (by decide)

/-- C9: `decrypt` is a total function: whatever ciphertext and private
key it is fed, it returns a polynomial, of length `N` with all
coefficients in `[0, p)` — a wrong key yields a wrong polynomial, never
an error signal. -/
theorem C9_decrypt_total (N p q : Nat) (hp : 0 < p) (c f fp_inv : List Int) :
    (decrypt N p q c f fp_inv).length = N ∧
      ∀ x ∈ decrypt N p q c f fp_inv, 0 ≤ x ∧ x < (p : Int) := by
  rw [decrypt_eq]
  exact ⟨length_mulMod N p _ _, mulMod_bounds hp _ _⟩

/-- Witness for C9 with a mismatched key: decryption still returns a
length-1 polynomial with coefficients in `[0, 3)`. -/
theorem C9_decrypt_total_witness :
    (decrypt 1 3 32 [5] [1] [2]).length = 1 ∧
      ∀ x ∈ decrypt 1 3 32 [5] [1] [2], 0 ≤ x ∧ x < ((3 : Nat) : Int) :=
  C9_decrypt_total 1 3 32 (by decide) [5] [1] [2]

/-- C10: `poly_mod_q` and `poly_mod_p` pad to length `N` and keep only
the first `N` coefficients — the value at each index `j < N` is the
input's coefficient `j` reduced, so coefficients at indices `≥ N` are
discarded rather than folded in — and consequently the result of
`poly_mod_q` on `x^2` with `N = 2` is the zero polynomial, which is not
congruent to `x^2 = 1` in `(Z/32)[x]/(x^2 - 1)`. -/
theorem C10_mod_truncates :
    (∀ (N m : Nat) (l : List Int) (j : Nat), j < N →
        (poly_mod_q N m l).length = N ∧
        (poly_mod_q N m l).getD j 0 = l.getD j 0 % (m : Int) ∧
        (poly_mod_p N m l).length = N ∧
        (poly_mod_p N m l).getD j 0 = l.getD j 0 % (m : Int)) ∧
      poly_mod_q 2 32 [0, 0, 1] = [0, 0] ∧
      phi 32 2 (poly_mod_q 2 32 [0, 0, 1]) ≠ phi 32 2 [0, 0, 1] := by
  refine ⟨?_, by decide, ?_⟩
  · intro N m l j hj
    exact ⟨length_poly_mod_q N m l, poly_mod_q_getD N m l j hj,
      length_poly_mod_p N m l, poly_mod_p_getD N m l j hj⟩
  · intro heq
    have hfold : phi 32 2 ([0, 0, 1] : List Int) = phi 32 2 ([1, 0] : List Int) := by
      rw [← show poly_reduce 2 [0, 0, 1] = ([1, 0] : List Int) by decide,
        phi_poly_reduce (by norm_num)]
    rw [show poly_mod_q 2 32 [0, 0, 1] = ([0, 0] : List Int) by decide, hfold] at heq
    have hcoeff := phi_getD_congr ([0, 0]) ([1, 0]) rfl rfl heq 0 (by norm_num)
    simp at hcoeff
    exact absurd hcoeff (by decide)

/-- Witness for C10's universally quantified part: the second coefficient
of `x^2` is dropped while index `0` is reduced in place. -/
theorem C10_mod_truncates_witness :
    (poly_mod_q 1 5 [7, 9]).getD 0 0 = ([7, 9] : List Int).getD 0 0 % ((5 : Nat) : Int) :=
  (C10_mod_truncates.1 1 5 [7, 9] 0 (by decide)).2.1

/-- C7: when the randomness source hands the sampler `d1 + d2` distinct
positions below `N` (which requires `d1 + d2 ≤ N`), it returns a
polynomial of length `N` with exactly `d1` coefficients `+1`, exactly
`d2` coefficients `-1`, and `0` everywhere else; when `d1 + d2 > N` the
draw fails (the `ValueError` of `random.sample`) instead of returning a
polynomial. -/
theorem C7_sampler (N d1 d2 : Nat) (pos : List Nat) :
    (validPositions N (d1 + d2) pos → d1 + d2 ≤ N →
      ∃ l, random_small_poly N d1 d2 pos = some l ∧ l.length = N ∧
        l.count 1 = d1 ∧ l.count (-1) = d2 ∧ ∀ c ∈ l, c = 1 ∨ c = -1 ∨ c = 0) ∧
      (N < d1 + d2 → random_small_poly N d1 d2 pos = none) := by
  constructor
  · intro hval hle
    obtain ⟨l, hl⟩ : ∃ l, random_small_poly N d1 d2 pos = some l := by
      rw [random_small_poly, if_pos hle]
      exact ⟨_, rfl⟩
    obtain ⟨h1, h2, h3, h4⟩ := random_small_poly_counts hl hval
    exact ⟨l, hl, h1, h2, h3, h4⟩
  · intro hlt
    rw [random_small_poly, if_neg (by omega)]

/-- Witness for C7: a successful draw at `N = 3`, `d1 = d2 = 1` with
positions `[2, 0]`, and a failing draw at `N = 2` with `d1 + d2 = 3`. -/
theorem C7_sampler_witness :
    (∃ l, random_small_poly 3 1 1 [2, 0] = some l ∧ l.length = 3 ∧
        l.count 1 = 1 ∧ l.count (-1) = 1 ∧ ∀ c ∈ l, c = 1 ∨ c = -1 ∨ c = 0) ∧
      random_small_poly 2 2 1 [0, 1] = none :=
  ⟨(C7_sampler 3 1 1 [2, 0]).1 ⟨by decide, by decide, by decide⟩ (by decide),
    (C7_sampler 2 2 1 [0, 1]).2 (by decide)⟩

/-- C8: on every successful run of key generation (over any list of
attempts whose position draws are valid samples), with `d = N / 3`, the
returned private key `(f, fp_inv)` and public key `h` satisfy: `f` was
sampled with `d + 1` coefficients `+1` and `d` coefficients `-1`, some
`g` was sampled with `d` of each, `fp_inv` and some `fq_inv` are the
inverses of `f` modulo `p` and `q`, and
`h = poly_mult_mod (p * fq_inv) g q`, a length-`N` polynomial with all
coefficients in `[0, q)`. -/
theorem C8_keygen (N p q : Nat) (hq : 0 < q) (attempts : List (List Nat × List Nat))
    (hval : ∀ att ∈ attempts,
      validPositions N (N / 3 + 1 + N / 3) att.1 ∧ validPositions N (N / 3 + N / 3) att.2)
    (f fp_inv h : List Int)
    (hkg : keygen N p q attempts = some ((f, fp_inv), h)) :
    ∃ g fq_inv : List Int,
      f.length = N ∧ f.count 1 = N / 3 + 1 ∧ f.count (-1) = N / 3 ∧
        (∀ c ∈ f, c = 1 ∨ c = -1 ∨ c = 0) ∧
      g.length = N ∧ g.count 1 = N / 3 ∧ g.count (-1) = N / 3 ∧
        (∀ c ∈ g, c = 1 ∨ c = -1 ∨ c = 0) ∧
      inv_poly N p f = some fp_inv ∧ inv_poly N q f = some fq_inv ∧
      h = poly_mult_mod N p q (smulList (p : Int) fq_inv) g (q : Int) ∧
      h.length = N ∧ (∀ c ∈ h, 0 ≤ c ∧ c < (q : Int)) := by
  induction attempts with
  | nil => exact absurd hkg (by simp [keygen])
  | cons att rest ih =>
    cases hatt : keygen_attempt N p q att.1 att.2 with
    | none =>
      simp only [keygen, hatt] at hkg
      exact ih (fun a ha => hval a (List.mem_cons_of_mem _ ha)) hkg
    | some result =>
      simp only [keygen, hatt] at hkg
      cases hrf : random_small_poly N (N / 3 + 1) (N / 3) att.1 with
      | none => simp only [keygen_attempt, hrf] at hatt; exact Option.noConfusion hatt
      | some f' =>
        cases hrg : random_small_poly N (N / 3) (N / 3) att.2 with
        | none => simp only [keygen_attempt, hrf, hrg] at hatt; exact Option.noConfusion hatt
        | some g' =>
          cases hip : inv_poly N p f' with
          | none => simp only [keygen_attempt, hrf, hrg, hip] at hatt; exact Option.noConfusion hatt
          | some fp' =>
            cases hiq : inv_poly N q f' with
            | none => simp only [keygen_attempt, hrf, hrg, hip, hiq] at hatt; exact Option.noConfusion hatt
            | some fq' =>
              simp only [keygen_attempt, hrf, hrg, hip, hiq] at hatt
              obtain rfl : _ = result := Option.some.inj hatt
              obtain ⟨⟨rfl, rfl⟩, rfl⟩ : (f' = f ∧ fp' = fp_inv) ∧
                  poly_mult_mod N p q (smulList (p : Int) fq') g' (q : Int) = h := by
                have h1 := Option.some.inj hkg
                exact ⟨⟨congrArg (fun x => x.1.1) h1, congrArg (fun x => x.1.2) h1⟩,
                  congrArg Prod.snd h1⟩
              have hvatt := hval att (List.mem_cons_self ..)
              obtain ⟨hfl, hf1, hfm, hfs⟩ := random_small_poly_counts hrf hvatt.1
              obtain ⟨hgl, hg1, hgm, hgs⟩ := random_small_poly_counts hrg hvatt.2
              refine ⟨g', fq', hfl, hf1, hfm, hfs, hgl, hg1, hgm, hgs, hip, hiq, rfl,
                length_poly_mult_mod N p q _ _ _, ?_⟩
              rw [poly_mult_mod_q_eq]
              exact mulMod_bounds hq _ _

/-- Witness for C8 at `N = 2`, `p = 3`, `q = 32`: one attempt with `f`
drawn at position 0 and `g` empty (`d = 0`), which succeeds with
`f = fp_inv = fq_inv = 1` and `h = 0`. -/
theorem C8_keygen_witness :
    ∃ g fq_inv : List Int,
      ([1, 0] : List Int).length = 2 ∧ ([1, 0] : List Int).count 1 = 2 / 3 + 1 ∧
        ([1, 0] : List Int).count (-1) = 2 / 3 ∧
        (∀ c ∈ ([1, 0] : List Int), c = 1 ∨ c = -1 ∨ c = 0) ∧
      g.length = 2 ∧ g.count 1 = 2 / 3 ∧ g.count (-1) = 2 / 3 ∧
        (∀ c ∈ g, c = 1 ∨ c = -1 ∨ c = 0) ∧
      inv_poly 2 3 [1, 0] = some [1, 0] ∧ inv_poly 2 32 [1, 0] = some fq_inv ∧
      ([0, 0] : List Int) = poly_mult_mod 2 3 32 (smulList ((3 : Nat) : Int) fq_inv) g ((32 : Nat) : Int) ∧
      ([0, 0] : List Int).length = 2 ∧
        (∀ c ∈ ([0, 0] : List Int), 0 ≤ c ∧ c < ((32 : Nat) : Int)) := by
  refine C8_keygen 2 3 32 (by decide) [([0], [])] ?_ [1, 0] [1, 0] [0, 0] (by decide)
  rintro att hatt
  obtain rfl : att = ([0], []) := List.mem_singleton.mp hatt
  exact ⟨⟨by decide, by decide, by decide⟩, ⟨by decide, by decide, by decide⟩⟩

/-- C1: round-trip correctness.  For a correctly generated key pair — `f`
with inverses `fp_inv` modulo `p` and `fq_inv` modulo `q` as computed by
`inv_poly`, and public key `h = poly_mult_mod (p * fq_inv) g q` as
computed by `keygen` — and any message of length `N` with coefficients
in `[0, p)`, and any random polynomial `r` drawn by `encrypt` whose true
noise term `p * (r * g) + f * message` stays (after folding modulo
`x^N - 1`) strictly inside the centered window `(-q/2, q/2]`, decryption
of the encryption returns exactly the message. -/
theorem C1_roundtrip (N p q : Nat) [NeZero N] (hp : 0 < p) (hq : 0 < q)
    (f g fp_inv fq_inv h msg c r : List Int) (posr : List Nat)
    (hfN : f.length = N) (hmsgN : msg.length = N)
    (hmsg : ∀ x ∈ msg, 0 ≤ x ∧ x < (p : Int))
    (hfp : inv_poly N p f = some fp_inv)
    (hfq : inv_poly N q f = some fq_inv)
    (hh : h = poly_mult_mod N p q (smulList (p : Int) fq_inv) g (q : Int))
    (hr : random_small_poly N (N / 3) (N / 3) posr = some r)
    (hc : encrypt N p q msg h posr = some c)
    (hnoise : ∀ j < N, -(q : Int) < 2 * (noisePoly N p f g r msg).getD j 0 ∧
        2 * (noisePoly N p f g r msg).getD j 0 ≤ (q : Int)) :
    decrypt N p q c f fp_inv = msg := by
  have hN : 0 < N := Nat.pos_of_ne_zero (NeZero.ne N)
  have hfp1 : mulMod N p f fp_inv = identityPoly N := by
    have hx := (inv_poly_some hfp).1
    rwa [padTrunc_eq_self N f hfN] at hx
  have hfq1 : mulMod N q f fq_inv = identityPoly N := by
    have hx := (inv_poly_some hfq).1
    rwa [padTrunc_eq_self N f hfN] at hx
  have hc' : c = poly_mod_q N q (addList (mulMod N q r h) msg) := by
    rw [encrypt, hr, Option.map_some'] at hc
    rw [← Option.some.inj hc, poly_mult_mod_q_eq]
  have hlensum : (addList (mulMod N q r h) msg).length = N := by
    rw [length_addList, length_mulMod, hmsgN, Nat.max_self]
  set t := noisePoly N p f g r msg with ht
  have hlent : t.length = N := length_poly_reduce N _
  set a := mulMod N q f c with ha
  have hlena : a.length = N := length_mulMod N q f c
  have hphiq : phi q N a = phi q N t := by
    rw [ha, phi_mulMod hN, hc', phi_poly_mod_q _ (le_of_eq hlensum), phi_addList,
      phi_mulMod hN, hh, poly_mult_mod_q_eq, phi_mulMod hN, phi_smulList, ht, noisePoly,
      phi_poly_reduce hN, phi_addList, phi_smulList, phi_conv, phi_conv]
    have hkey : phi q N f * phi q N fq_inv = 1 := by
      rw [← phi_mulMod hN, hfq1, phi_identityPoly hN]
    have hexp : phi q N f *
        (phi q N r * (AddMonoidAlgebra.single 0 (((p : Int) : ZMod q)) * phi q N fq_inv
            * phi q N g) + phi q N msg)
        = AddMonoidAlgebra.single 0 (((p : Int) : ZMod q)) * (phi q N r * phi q N g)
            * (phi q N f * phi q N fq_inv) + phi q N f * phi q N msg := by
      ring
    rw [hexp, hkey, mul_one]
  have habound : ∀ x ∈ a, 0 ≤ x ∧ x < (q : Int) := mulMod_bounds hq f c
  have hcenter : center N q a = t := by
    apply List.ext_getElem (by rw [length_center, hlent])
    intro j h1 h2
    have hjN : j < N := by rwa [length_center] at h1
    rw [← List.getD_eq_getElem _ 0 h1, ← List.getD_eq_getElem _ 0 h2,
      center_getD N q a j hjN]
    have hcast := phi_getD_congr a t hlena hlent hphiq j hjN
    have hmodeq : a.getD j 0 % (q : Int) = t.getD j 0 % (q : Int) :=
      (ZMod.intCast_eq_intCast_iff' _ _ _).mp hcast
    have haj := habound _ (getD_mem a j (hlena ▸ hjN))
    have hnj := hnoise j hjN
    have hq1 : (1 : Int) ≤ (q : Int) := by exact_mod_cast hq
    have hxx : a.getD j 0 % (q : Int) = a.getD j 0 := Int.emod_eq_of_lt haj.1 haj.2
    by_cases hy0 : 0 ≤ t.getD j 0
    · have hyq : t.getD j 0 < (q : Int) := by omega
      have hyy : t.getD j 0 % (q : Int) = t.getD j 0 := Int.emod_eq_of_lt hy0 hyq
      have hxy : a.getD j 0 = t.getD j 0 := by rw [← hxx, hmodeq, hyy]
      have hcond : ¬ ((q / 2 : Nat) : Int) < a.getD j 0 := by omega
      rw [if_neg hcond, hxy]
    · push_neg at hy0
      have hyy : t.getD j 0 % (q : Int) = t.getD j 0 + (q : Int) := by
        have hsplit : t.getD j 0 % (q : Int) = (t.getD j 0 + (q : Int)) % (q : Int) := by
          rw [show t.getD j 0 + (q : Int) = t.getD j 0 + (q : Int) * 1 by ring,
            Int.add_mul_emod_self_left]
        have hge : (0 : Int) ≤ t.getD j 0 + (q : Int) := by omega
        have hlt : t.getD j 0 + (q : Int) < (q : Int) := by omega
        rw [hsplit]
        exact Int.emod_eq_of_lt hge hlt
      have hxy : a.getD j 0 = t.getD j 0 + (q : Int) := by rw [← hxx, hmodeq, hyy]
      have hcond : ((q / 2 : Nat) : Int) < a.getD j 0 := by omega
      rw [if_pos hcond, hxy]
      ring
  have hout : decrypt N p q c f fp_inv = mulMod N p fp_inv (poly_mod_p N p t) := by
    rw [decrypt_eq, poly_mult_mod_q_eq, ← ha, hcenter]
  have hphip : phi p N (decrypt N p q c f fp_inv) = phi p N msg := by
    rw [hout, phi_mulMod hN, phi_poly_mod_p _ (le_of_eq hlent), ht, noisePoly,
      phi_poly_reduce hN, phi_addList, phi_smulList, phi_conv, phi_conv]
    have hp0 : (((p : Int)) : ZMod p) = 0 := by
      rw [Int.cast_natCast, ZMod.natCast_self]
    rw [hp0, AddMonoidAlgebra.single_zero, zero_mul, zero_add]
    have hkeyp : phi p N f * phi p N fp_inv = 1 := by
      rw [← phi_mulMod hN, hfp1, phi_identityPoly hN]
    calc phi p N fp_inv * (phi p N f * phi p N msg)
        = phi p N f * phi p N fp_inv * phi p N msg := by ring
      _ = phi p N msg := by rw [hkeyp, one_mul]
  have hlenout : (decrypt N p q c f fp_inv).length = N := by
    rw [hout]
    exact length_mulMod N p _ _
  have houtb : ∀ x ∈ decrypt N p q c f fp_inv, 0 ≤ x ∧ x < (p : Int) := by
    rw [hout]
    exact mulMod_bounds hp _ _
  apply List.ext_getElem (by rw [hlenout, hmsgN])
  intro j h1 h2
  have hjN : j < N := by rwa [hlenout] at h1
  rw [← List.getD_eq_getElem _ 0 h1, ← List.getD_eq_getElem _ 0 h2]
  have hcast := phi_getD_congr _ _ hlenout hmsgN hphip j hjN
  exact intCast_zmod_inj (houtb _ (getD_mem _ j (by rw [hlenout]; exact hjN))).1
    (houtb _ (getD_mem _ j (by rw [hlenout]; exact hjN))).2
    (hmsg _ (getD_mem _ j (by rw [hmsgN]; exact hjN))).1
    (hmsg _ (getD_mem _ j (by rw [hmsgN]; exact hjN))).2 hcast

/-- Witness for C1 at `N = 2`, `p = 3`, `q = 32` with `f = 1`, `g = x`,
`h = 3x`, message `1 + 2x`, and the empty draw `r = 0` (`d = 0`): all key
equations and the noise bound hold, and decryption returns the
message. -/
theorem C1_roundtrip_witness : decrypt 2 3 32 [1, 2] [1, 0] [1, 0] = [1, 2] :=
  C1_roundtrip 2 3 32 (by decide) (by decide) [1, 0] [0, 1] [1, 0] [1, 0] [0, 3]
    [1, 2] [1, 2] [0, 0] [] (by decide) (by decide) (by decide) (by decide) (by decide)
    (by decide) (by decide) (by decide) (by decide)

end Claims

example : conv [1, 0] [1, 2] = [1, 2, 0] := by decide
example : poly_reduce 2 [1, 2, 0] = [1, 2] := by decide
example : mulMod 2 3 [2, 0] [2, 0] = [1, 0] := by decide
example : inv_poly 2 3 [2, 0] = some [2, 0] := by decide
example : inv_poly 1 15 [2] = some [8] := by decide
example : random_small_poly 3 1 1 [2, 0] = some [-1, 0, 1] := by decide
example : center 2 32 [5, 20] = [5, -12] := by decide

end SimpleNTRU
